import Mathlib

/-!
Verification of the axtree-devtools recording/replay core.

The development shallowly embeds, from the TypeScript source:
  * the accessibility-tree data model (`packages/core/src/types.ts`),
  * the tree normalizer `buildTree` / `flattenTree` (parser module),
  * the diff wrappers `calculateTreeDiff` / `applyTreeDiff`
    (`packages/core/src/diff.ts`),
  * the `Recorder` session state machine (`packages/bridge/src/types.ts`,
    which also carries `stableStringify` and `extractChangedNodeIds`),
  * the playback reconstruction of `TimelinePlayer`
    (`packages/ui/src/components/TimelinePlayer.tsx`).

The underlying structural differ (`jsondiffpatch.diff` / `jsondiffpatch.patch`,
re-exported to the recorder as `computeDelta` from `@ax/core`) is a dependency
whose source is not part of the repository; it is modelled from the spec as an
identity-keyed structural patch (spec section 4.2 and the design note in
section 9), see `diffTree` / `patchTree` below.

Modelling conventions:
  * machine numbers (`backendNodeId`, timestamps, counts) are `Nat`;
  * optional TS fields are `Option`;
  * a TS tree node's absent `children` array and an empty one are identified
    (both produce no edges anywhere in the source);
  * JS falsiness of the number `0` is modelled explicitly where the source
    relies on it (`!node.parentId`, `this.options.maxTimelineEntries &&`);
  * fallible operations return `Option` / `Except`, and the unbounded
    recursion of `convertToTreeNode` is given explicit fuel.
-/

/-- Tree-form accessibility node (`AXNodeTree` of `packages/core/src/types.ts`):
`backendNodeId`, required `role`, optional `name`/`value`, nested children.
Auxiliary string-map fields (`properties`, `attributes`, `boundingBox`,
`states`) are carried by no claim and are omitted. -/
inductive AXNodeTree where
  | mk (backendNodeId : Nat) (role : String)
       (name : Option String) (value : Option String)
       (children : List AXNodeTree)

/-- `backendNodeId` accessor. -/
def AXNodeTree.backendNodeId : AXNodeTree → Nat
  | .mk i _ _ _ _ => i

/-- `role` accessor. -/
def AXNodeTree.role : AXNodeTree → String
  | .mk _ r _ _ _ => r

/-- `name` accessor. -/
def AXNodeTree.name : AXNodeTree → Option String
  | .mk _ _ n _ _ => n

/-- `value` accessor. -/
def AXNodeTree.value : AXNodeTree → Option String
  | .mk _ _ _ v _ => v

/-- `children` accessor. -/
def AXNodeTree.children : AXNodeTree → List AXNodeTree
  | .mk _ _ _ _ cs => cs

mutual

/-- Boolean structural equality on tree nodes. -/
def AXNodeTree.beq : AXNodeTree → AXNodeTree → Bool
  | .mk i r n v cs, .mk i' r' n' v' cs' =>
    i == i' && r == r' && n == n' && v == v' && AXNodeTree.beqList cs cs'

/-- Boolean structural equality on child lists. -/
def AXNodeTree.beqList : List AXNodeTree → List AXNodeTree → Bool
  | [], [] => true
  | t :: ts, t' :: ts' => AXNodeTree.beq t t' && AXNodeTree.beqList ts ts'
  | _, _ => false

end

mutual

theorem AXNodeTree.beq_iff : ∀ a b : AXNodeTree, AXNodeTree.beq a b = true ↔ a = b
  | .mk i r n v cs, .mk i' r' n' v' cs' => by
    simp [AXNodeTree.beq, AXNodeTree.beqList_iff cs cs', and_assoc]

theorem AXNodeTree.beqList_iff : ∀ a b : List AXNodeTree,
    AXNodeTree.beqList a b = true ↔ a = b
  | [], [] => by simp [AXNodeTree.beqList]
  | t :: ts, t' :: ts' => by
    simp [AXNodeTree.beqList, AXNodeTree.beq_iff t t', AXNodeTree.beqList_iff ts ts']
  | [], _ :: _ => by simp [AXNodeTree.beqList]
  | _ :: _, [] => by simp [AXNodeTree.beqList]

end

instance : DecidableEq AXNodeTree := fun a b => decidable_of_iff _ (AXNodeTree.beq_iff a b)

/-- Strong induction over a tree node and all (transitive) children. -/
def AXNodeTree.strongInd {motive : AXNodeTree → Prop}
    (h : ∀ i r n v cs, (∀ c ∈ cs, motive c) → motive (.mk i r n v cs)) :
    ∀ t, motive t
  | .mk i r n v cs => h i r n v cs (fun c hc => AXNodeTree.strongInd h c)
termination_by t => sizeOf t
decreasing_by
  have h1 := List.sizeOf_lt_of_mem hc
  simp only [AXNodeTree.mk.sizeOf_spec]
  omega

/-- Flat-form accessibility node (`AXNodeFlat` of `packages/core/src/types.ts`):
tree-node fields plus `parentId` and `childIds` instead of nested children.
An absent `childIds` array and an empty one are identified. -/
structure AXNodeFlat where
  backendNodeId : Nat
  role : String
  name : Option String := none
  value : Option String := none
  parentId : Option Nat := none
  childIds : List Nat := []
deriving DecidableEq

/-- The ids of a flat node list. -/
def flatIds (L : List AXNodeFlat) : List Nat := L.map (·.backendNodeId)

/-- The parent/child edges `(parent, child)` declared by the `childIds` of a
flat node list. -/
def flatEdges (L : List AXNodeFlat) : List (Nat × Nat) :=
  L.flatMap (fun n => n.childIds.map (fun c => (n.backendNodeId, c)))

/-- Modelled from the spec: the delta produced by the underlying structural
differ (`jsondiffpatch` with `objectHash = backendNodeId`, re-exported as
`computeDelta` by `@ax/core`; its source is not part of the repository).
Per spec section 4.2 and the section 9 design note it is an identity-keyed
structural patch: per-field old/new pairs, and a children patch that is keyed
by `backendNodeId` so that insert/remove/move are distinguished from pure
value edits.  A child entry is either `.inl (id, d?)` — the child with this
`backendNodeId` existed in the old children and is patched by `d?` (`none`
meaning unchanged) — or `.inr t`, a freshly inserted subtree. -/
inductive NodeDelta where
  | mk (bid : Option (Nat × Nat)) (role : Option (String × String))
       (name : Option (Option String × Option String))
       (value : Option (Option String × Option String))
       (children : Option (List ((Nat × Option NodeDelta) ⊕ AXNodeTree)))

/-- One entry of a children patch. -/
abbrev ChildItem := (Nat × Option NodeDelta) ⊕ AXNodeTree

/-- Field accessor for the children patch of a delta. -/
def NodeDelta.children : NodeDelta → Option (List ChildItem)
  | .mk _ _ _ _ cs => cs

/-- Old/new pair for one scalar field; absent when the field is unchanged. -/
def diffField {α : Type} [DecidableEq α] (x y : α) : Option (α × α) :=
  if x = y then none else some (x, y)

/-- Apply an optional old/new field pair. -/
def applyField {α : Type} (x : α) : Option (α × α) → α
  | none => x
  | some (_, n) => n

/-- The number of present top-level keys of a delta (`Object.keys(delta).length`
on the jsondiffpatch delta object). -/
def NodeDelta.keyCount : NodeDelta → Nat
  | .mk bid role name value children =>
    (if bid.isSome then 1 else 0) + (if role.isSome then 1 else 0) +
    (if name.isSome then 1 else 0) + (if value.isSome then 1 else 0) +
    (if children.isSome then 1 else 0)

mutual

/-- Modelled from the spec: `jsondiffpatch.diff` / `computeDelta` on two tree
nodes.  Absent
(`none`) when the trees are semantically identical, otherwise an
identity-keyed structural patch (spec section 4.2). -/
def diffTree : AXNodeTree → AXNodeTree → Option NodeDelta
  | a, .mk i r n v cs =>
    if a = AXNodeTree.mk i r n v cs then none
    else some (.mk (diffField a.backendNodeId i) (diffField a.role r)
      (diffField a.name n) (diffField a.value v) (diffChildren a.children cs))

/-- Children patch: absent when the child lists are identical, otherwise one
entry per new child, matched against the old children by `backendNodeId`. -/
def diffChildren (as : List AXNodeTree) (bs : List AXNodeTree) : Option (List ChildItem) :=
  if as = bs then none else some (diffChildList as bs)

/-- The entry list of a children patch: each new child found in the old
children (by id) carries a nested delta, the rest are inserted subtrees. -/
def diffChildList (as : List AXNodeTree) : List AXNodeTree → List ChildItem
  | [] => []
  | b :: bs => diffChildEntry as b :: diffChildList as bs

/-- One children-patch entry for the new child `b`: nested delta if a child
with the same `backendNodeId` exists in the old children, insertion
otherwise. -/
def diffChildEntry (as : List AXNodeTree) (b : AXNodeTree) : ChildItem :=
  match as.find? (fun a => a.backendNodeId == b.backendNodeId) with
  | some a => .inl (b.backendNodeId, diffTree a b)
  | none => .inr b

end

mutual

/-- Modelled from the spec: `jsondiffpatch.patch` (the `apply` direction of
the delta contract, spec section 4.2).  `none` models a thrown
patch error (`DeltaApplicationFailure`): a matched child id that no longer
exists in the target's children. -/
def patchTree (t : AXNodeTree) : NodeDelta → Option AXNodeTree
  | .mk bid role name value none =>
    some (.mk (applyField t.backendNodeId bid) (applyField t.role role)
      (applyField t.name name) (applyField t.value value) t.children)
  | .mk bid role name value (some items) =>
    (patchChildList t.children items).map (fun cs =>
      .mk (applyField t.backendNodeId bid) (applyField t.role role)
        (applyField t.name name) (applyField t.value value) cs)

/-- Rebuild a children list from a children patch; fails if a matched id is
missing from the old children. -/
def patchChildList (old : List AXNodeTree) : List ChildItem → Option (List AXNodeTree)
  | [] => some []
  | item :: rest => do
    let c ← patchChildItem old item
    let cs ← patchChildList old rest
    pure (c :: cs)

/-- Rebuild one child from a children-patch entry. -/
def patchChildItem (old : List AXNodeTree) : ChildItem → Option AXNodeTree
  | .inl (id, d) =>
    match old.find? (fun a => a.backendNodeId == id) with
    | some a => match d with
      | none => some a
      | some dd => patchTree a dd
    | none => none
  | .inr t => some t

end

theorem diffTree_eq_none_iff (a b : AXNodeTree) : diffTree a b = none ↔ a = b := by
  cases b with
  | mk i r n v cs =>
    rw [diffTree]
    split
    · simp [*]
    · simp [*]

theorem diffChildren_eq_none_iff (as bs : List AXNodeTree) :
    diffChildren as bs = none ↔ as = bs := by
  rw [diffChildren]
  split
  · simp [*]
  · simp [*]

theorem patchChildItem_diffChildEntry (old : List AXNodeTree) (b : AXNodeTree)
    (IH : ∀ a d, diffTree a b = some d → patchTree a d = some b) :
    patchChildItem old (diffChildEntry old b) = some b := by
  rw [diffChildEntry]
  cases hfind : old.find? (fun a => a.backendNodeId == b.backendNodeId) with
  | none => simp [patchChildItem]
  | some a =>
    show patchChildItem old (Sum.inl (b.backendNodeId, diffTree a b)) = some b
    cases hd : diffTree a b with
    | none =>
      have ha : a = b := (diffTree_eq_none_iff a b).mp hd
      simp only [patchChildItem]
      rw [hfind]
      exact congrArg some ha
    | some d =>
      simp only [patchChildItem]
      rw [hfind]
      exact IH a d hd

theorem patchChildList_diffChildList (old : List AXNodeTree) (bs : List AXNodeTree)
    (IH : ∀ b ∈ bs, ∀ a d, diffTree a b = some d → patchTree a d = some b) :
    patchChildList old (diffChildList old bs) = some bs := by
  induction bs with
  | nil => rw [diffChildList, patchChildList]
  | cons b bs ih =>
    rw [diffChildList, patchChildList,
      patchChildItem_diffChildEntry old b (fun a d hd => IH b (by simp) a d hd),
      ih (fun b' hb' a d hd => IH b' (by simp [hb']) a d hd)]
    rfl

/-- Patch correctness of the modelled differ: applying the delta computed
between `a` and `b` to `a` reconstructs `b` exactly. -/
theorem patchTree_diffTree (b : AXNodeTree) :
    ∀ a d, diffTree a b = some d → patchTree a d = some b := by
  induction b using AXNodeTree.strongInd with
  | _ i r n v cs IH =>
    intro a d hd
    rw [diffTree] at hd
    split at hd
    · exact absurd hd (by simp)
    · next hne =>
      have hd' : d = .mk (diffField a.backendNodeId i) (diffField a.role r)
          (diffField a.name n) (diffField a.value v) (diffChildren a.children cs) := by
        injection hd with h
        exact h.symm
      subst hd'
      cases hcs : diffChildren a.children cs with
      | none =>
        have hceq : a.children = cs := (diffChildren_eq_none_iff _ _).mp hcs
        rw [patchTree]
        have h1 : applyField a.backendNodeId (diffField a.backendNodeId i) = i := by
          unfold applyField diffField; split <;> simp_all
        have h2 : applyField a.role (diffField a.role r) = r := by
          unfold applyField diffField; split <;> simp_all
        have h3 : applyField a.name (diffField a.name n) = n := by
          unfold applyField diffField; split <;> simp_all
        have h4 : applyField a.value (diffField a.value v) = v := by
          unfold applyField diffField; split <;> simp_all
        rw [h1, h2, h3, h4, hceq]
      | some items =>
        have hitems : items = diffChildList a.children cs := by
          rw [diffChildren] at hcs
          split at hcs
          · exact absurd hcs (by simp)
          · injection hcs with h
            exact h.symm
        subst hitems
        rw [patchTree, patchChildList_diffChildList a.children cs IH]
        have h1 : applyField a.backendNodeId (diffField a.backendNodeId i) = i := by
          unfold applyField diffField; split <;> simp_all
        have h2 : applyField a.role (diffField a.role r) = r := by
          unfold applyField diffField; split <;> simp_all
        have h3 : applyField a.name (diffField a.name n) = n := by
          unfold applyField diffField; split <;> simp_all
        have h4 : applyField a.value (diffField a.value v) = v := by
          unfold applyField diffField; split <;> simp_all
        simp only [Option.map_some']
        rw [h1, h2, h3, h4]

/-- A delta produced for two distinct trees is never the empty object: at
least one of its keys is present. -/
theorem diffTree_keyCount (a b : AXNodeTree) (d : NodeDelta)
    (hd : diffTree a b = some d) : d.keyCount ≠ 0 := by
  cases b with
  | mk i r n v cs =>
    rw [diffTree] at hd
    split at hd
    · exact absurd hd (by simp)
    · next hne =>
      have hd' : d = .mk (diffField a.backendNodeId i) (diffField a.role r)
          (diffField a.name n) (diffField a.value v) (diffChildren a.children cs) := by
        injection hd with h
        exact h.symm
      subst hd'
      intro hzero
      rw [NodeDelta.keyCount] at hzero
      have h1 : diffField a.backendNodeId i = none := by
        by_cases h : (diffField a.backendNodeId i).isSome
        · simp [h] at hzero
        · simpa using h
      have h2 : diffField a.role r = none := by
        by_cases h : (diffField a.role r).isSome
        · simp [h] at hzero
        · simpa using h
      have h3 : diffField a.name n = none := by
        by_cases h : (diffField a.name n).isSome
        · simp [h] at hzero
        · simpa using h
      have h4 : diffField a.value v = none := by
        by_cases h : (diffField a.value v).isSome
        · simp [h] at hzero
        · simpa using h
      have h5 : diffChildren a.children cs = none := by
        by_cases h : (diffChildren a.children cs).isSome
        · simp [h] at hzero
        · simpa using h
      have e1 : a.backendNodeId = i := by
        rw [diffField] at h1; by_contra hne'; simp [hne'] at h1
      have e2 : a.role = r := by
        rw [diffField] at h2; by_contra hne'; simp [hne'] at h2
      have e3 : a.name = n := by
        rw [diffField] at h3; by_contra hne'; simp [hne'] at h3
      have e4 : a.value = v := by
        rw [diffField] at h4; by_contra hne'; simp [hne'] at h4
      have e5 : a.children = cs := (diffChildren_eq_none_iff _ _).mp h5
      apply hne
      cases a with
      | mk ia ra na va csa =>
        simp only [AXNodeTree.backendNodeId] at e1
        simp only [AXNodeTree.role] at e2
        simp only [AXNodeTree.name] at e3
        simp only [AXNodeTree.value] at e4
        simp only [AXNodeTree.children] at e5
        rw [e1, e2, e3, e4, e5]

/-- Result object of `calculateTreeDiff` (`packages/core/src/diff.ts`): a
discriminated record `{type, ...}`; for `tree_updated` it carries the
jsondiffpatch delta (absent when the trees are equal) and a `hasChanges`
flag. -/
inductive TreeDiffResult where
  | nullDiff
  | treeCreated (tree : AXNodeTree)
  | treeDeleted (tree : AXNodeTree)
  | treeUpdated (delta : Option NodeDelta) (hasChanges : Bool)

/-- `calculateTreeDiff(oldTree, newTree)` of `packages/core/src/diff.ts`:
null/created/deleted special cases for absent trees, otherwise a
`tree_updated` result holding `differ.diff(oldTree, newTree)`. -/
def calculateTreeDiff : Option AXNodeTree → Option AXNodeTree → TreeDiffResult
  | none, none => .nullDiff
  | none, some newTree => .treeCreated newTree
  | some oldTree, none => .treeDeleted oldTree
  | some oldTree, some newTree =>
    .treeUpdated (diffTree oldTree newTree) (diffTree oldTree newTree).isSome

/-- `applyTreeDiff(tree, diff)` of `packages/core/src/diff.ts`: if the diff
object carries no `delta` field the (cloned) tree is returned unchanged,
otherwise `jsondiffpatch.patch` is applied to a clone; `none` models a
thrown patch error. -/
def applyTreeDiff (tree : AXNodeTree) : TreeDiffResult → Option AXNodeTree
  | .treeUpdated (some delta) _ => patchTree tree delta
  | _ => some tree

/-- Claim C1: for every pair of trees A and B, applying the delta computed
between A and B to A yields a tree structurally equivalent to B:
`applyTreeDiff A (calculateTreeDiff A B)` succeeds and returns exactly B. -/
theorem applyTreeDiff_calculateTreeDiff (A B : AXNodeTree) :
    applyTreeDiff A (calculateTreeDiff (some A) (some B)) = some B := by
  rw [calculateTreeDiff]
  cases hd : diffTree A B with
  | none =>
    have : A = B := (diffTree_eq_none_iff A B).mp hd
    simp [applyTreeDiff, this]
  | some d =>
    simp only [applyTreeDiff]
    exact patchTree_diffTree B A d hd

/-- The node map of `buildTree` (a JS `Map` filled with `nodeMap.set(id, node)`
over the list): lookup returns the last node listed with the given id. -/
def mapLookup (L : List AXNodeFlat) (id : Nat) : Option AXNodeFlat :=
  L.reverse.find? (fun n => n.backendNodeId == id)

/-- Root detection of `buildTree`: `!node.parentId || !nodeMap.has(node.parentId)`.
A node is a root when it has no parent id, when the parent id is the falsy
number 0, or when the parent id is absent from the node map. -/
def isRootFlat (L : List AXNodeFlat) (n : AXNodeFlat) : Bool :=
  match n.parentId with
  | none => true
  | some p => p == 0 || (mapLookup L p).isNone

/-- `convertToTreeNode` of the parser module: recursively resolves `children`
via `childIds`, silently dropping references to unknown ids.  The source
recursion is unbounded; `fuel` makes it total, `none` meaning the recursion
depth exceeded the fuel (divergence of the source on cyclic input). -/
def convertToTreeNode (L : List AXNodeFlat) : Nat → AXNodeFlat → Option AXNodeTree
  | 0, _ => none
  | fuel + 1, flatNode =>
    ((flatNode.childIds.filterMap (mapLookup L)).mapM (convertToTreeNode L fuel)).map
      (fun cs => .mk flatNode.backendNodeId flatNode.role flatNode.name flatNode.value cs)

/-- `buildTree(flatNodes)` of the parser module, with fuel for the conversion
recursion.  Outer `none` = the conversion ran out of fuel; `some none` = the
source returned `null` (empty input); `some (some t)` = the built tree.
Roots are the nodes whose parent reference does not resolve; if none qualify
the first listed node is used. -/
def buildTree (fuel : Nat) (L : List AXNodeFlat) : Option (Option AXNodeTree) :=
  match L with
  | [] => some none
  | first :: _ =>
    let roots := L.filter (isRootFlat L)
    let root := roots.headD first
    (convertToTreeNode L fuel root).map some

mutual

/-- `flattenTree(tree, parentId?)` of the parser module: pre-order flat list,
`parentId`/`childIds` derived from the tree structure. -/
def flattenTree : AXNodeTree → Option Nat → List AXNodeFlat
  | .mk i r n v cs, parentId =>
    ⟨i, r, n, v, parentId, cs.map (·.backendNodeId)⟩ :: flattenChildren cs i

/-- Flattening of a children list under the given parent id. -/
def flattenChildren : List AXNodeTree → Nat → List AXNodeFlat
  | [], _ => []
  | c :: cs, p => flattenTree c (some p) ++ flattenChildren cs p

end

/-- `UserInteractionEvent` of `packages/core/src/types.ts`; `details : any` is
carried as an opaque string. -/
structure UserInteractionEvent where
  type : String
  timestamp : Nat
  details : String := ""

/-- `TimelineEntry` of `packages/core/src/types.ts` plus the `changedNodeIds`
field the recorder writes.  `delta = none` models both an absent delta and
the empty object `{}` (zero keys) that `recordUserEvent` stores — the source
treats the two identically (`Object.keys(entry.delta).length > 0`). -/
structure TimelineEntry where
  timestamp : Nat
  event : Option UserInteractionEvent := none
  delta : Option NodeDelta := none
  changedNodeIds : Option (List Nat) := none

/-- `AXTreeSnapshot` of `packages/core/src/types.ts`. -/
structure AXTreeSnapshot where
  timestamp : Nat
  tree : AXNodeTree
  flatNodes : List AXNodeFlat
  url : Option String := none
  title : Option String := none

/-- Recording metadata (`Recording.metadata` of `packages/core/src/types.ts`). -/
structure RecordingMetadata where
  startTime : Nat
  endTime : Nat
  url : Option String := none
  title : Option String := none
  version : String

/-- `Recording` of `packages/core/src/types.ts`. -/
structure Recording where
  metadata : RecordingMetadata
  initialSnapshot : AXTreeSnapshot
  timeline : List TimelineEntry

/-- The private state of the `Recorder` class
(`packages/bridge/src/types.ts`).  `maxTimelineEntries = 0` is falsy in
`if (this.options.maxTimelineEntries && ...)` and disables the cap. -/
structure RecorderState where
  isRecording : Bool := false
  initialSnapshot : Option AXTreeSnapshot := none
  currentTree : Option AXNodeTree := none
  timeline : List TimelineEntry := []
  startTime : Nat := 0
  maxTimelineEntries : Nat := 10000
  lastSerializedTree : Option AXNodeTree := none

/-- The `Recorder` constructor: options merged over the default
`maxTimelineEntries = 10000`. -/
def mkRecorder (maxTimelineEntries : Option Nat) : RecorderState :=
  { maxTimelineEntries := maxTimelineEntries.getD 10000 }

/-- Errors thrown by the recorder state machine (error taxonomy of spec
section 7): `Error('Recording is already in progress')` and
`Error('No recording in progress')`. -/
inductive RecorderError where
  | alreadyRecording
  | notRecording
deriving DecidableEq

/-- `stableStringify` of the recorder: a deterministic serialization obtained
by sorting object keys.  In this embedding tree values carry no key
ordering, so the canonical serialization of a tree is represented by the
canonical tree value itself; equality of the serializations of two TS trees
that differ only in key order is exactly equality of their embeddings. -/
def stableStringify (value : AXNodeTree) : AXNodeTree := value

mutual

/-- `Recorder.flattenTree` (the bridge-local flatten used for
`initialSnapshot.flatNodes`): pre-order, `childIds` derived from children,
never sets `parentId`. -/
def bridgeFlattenTree : AXNodeTree → List AXNodeFlat
  | .mk i r n v cs =>
    ⟨i, r, n, v, none, cs.map (·.backendNodeId)⟩ :: bridgeFlattenChildren cs

/-- Pre-order flattening of a children list for `Recorder.flattenTree`. -/
def bridgeFlattenChildren : List AXNodeTree → List AXNodeFlat
  | [] => []
  | c :: cs => bridgeFlattenTree c ++ bridgeFlattenChildren cs

end

/-- `Recorder.startRecording(initialTree, url?, title?)`: throws
`AlreadyRecording` while recording, otherwise snapshots the tree (deep clone
modelled by the value itself), seeds the serialized baseline and clears the
timeline.  `now` stands for `Date.now()`. -/
def startRecording (now : Nat) (initialTree : AXNodeTree) (url title : Option String)
    (s : RecorderState) : Except RecorderError RecorderState :=
  if s.isRecording then .error .alreadyRecording
  else .ok { s with
    startTime := now
    initialSnapshot := some ⟨now, initialTree, bridgeFlattenTree initialTree, url, title⟩
    currentTree := some initialTree
    lastSerializedTree := some (stableStringify initialTree)
    timeline := []
    isRecording := true }

/-- `Recorder.stopRecording()`: throws `NotRecording` when idle, otherwise
returns the finalized recording and resets all session state. -/
def stopRecording (now : Nat) (s : RecorderState) :
    Except RecorderError (Recording × RecorderState) :=
  match s.isRecording, s.initialSnapshot with
  | true, some snap =>
    .ok (⟨⟨s.startTime, now, snap.url, snap.title, "1.0.0"⟩, snap, s.timeline⟩,
      { s with isRecording := false, initialSnapshot := none,
               currentTree := none, timeline := [] })
  | _, _ => .error .notRecording

/-- Triple of the fields the recorder's change detection compares. -/
structure RoleNameValue where
  role : String
  name : Option String := none
  value : Option String := none
deriving DecidableEq

mutual

/-- The per-tree id→(role, name, value) map of `extractChangedNodeIds`,
collected pre-order (`collect` visits the node, then its children). -/
def collectTriples : AXNodeTree → List (Nat × RoleNameValue)
  | .mk i r n v cs => (i, ⟨r, n, v⟩) :: collectTriplesChildren cs

/-- Pre-order triple collection over a children list. -/
def collectTriplesChildren : List AXNodeTree → List (Nat × RoleNameValue)
  | [] => []
  | c :: cs => collectTriples c ++ collectTriplesChildren cs

end

/-- JS `Map.get`: the last value set for the key wins. -/
def tripleGet (m : List (Nat × RoleNameValue)) (id : Nat) : Option RoleNameValue :=
  (m.reverse.find? (fun p => p.1 == id)).map (·.2)

/-- JS `Set`/`Map` iteration order: first insertion wins, later duplicates
keep the original position. -/
def dedupFirstAux : List Nat → List Nat → List Nat
  | [], _ => []
  | x :: xs, seen => if x ∈ seen then dedupFirstAux xs seen else x :: dedupFirstAux xs (x :: seen)

/-- Deduplicate keeping the first occurrence of each element. -/
def dedupFirst (l : List Nat) : List Nat := dedupFirstAux l []

/-- `Recorder.extractChangedNodeIds(prev, next)`: over the union of ids of
both trees, keep the ids present in only one tree or whose
(role, name, value) triple differs. -/
def extractChangedNodeIds (prev next : AXNodeTree) : List Nat :=
  let prevMap := collectTriples prev
  let nextMap := collectTriples next
  let ids := dedupFirst ((prevMap.map (·.1)) ++ (nextMap.map (·.1)))
  ids.filter (fun id =>
    match tripleGet prevMap id, tripleGet nextMap id with
    | some a, some b => decide (a ≠ b)
    | _, _ => true)

/-- `computeDelta` re-exported by `@ax/core` and imported by the recorder.
Modelled from the spec: its implementation is not part of the repository
source; spec section 4.2 specifies an identity-keyed structural diff that is
empty/absent exactly for semantically identical trees, which `diffTree`
realizes. -/
def computeDelta (prev next : AXNodeTree) : Option NodeDelta := diffTree prev next

/-- `Recorder.recordTreeChange(newTree, event?)` (the
`packages/bridge/src/types.ts` version with the stable-serialization
short-circuit): no-ops while idle; no-ops when the canonical serialization
equals the stored baseline serialization; no-ops when the computed delta is
absent or empty; otherwise appends a timeline entry, enforces the cap by
dropping the oldest entry, and advances the baseline. -/
def recordTreeChange (now : Nat) (newTree : AXNodeTree)
    (event : Option UserInteractionEvent) (s : RecorderState) : RecorderState :=
  match s.isRecording, s.currentTree with
  | true, some currentTree =>
    let serializedNew := stableStringify newTree
    if s.lastSerializedTree = some serializedNew then s
    else
      match computeDelta currentTree newTree with
      | none => s
      | some delta =>
        if delta.keyCount = 0 then s
        else
          let entry : TimelineEntry :=
            ⟨now, event, some delta, some (extractChangedNodeIds currentTree newTree)⟩
          let timeline := s.timeline ++ [entry]
          let timeline :=
            if s.maxTimelineEntries ≠ 0 ∧ timeline.length > s.maxTimelineEntries
            then timeline.tail else timeline
          { s with timeline := timeline, currentTree := some newTree,
                   lastSerializedTree := some serializedNew }
  | _, _ => s

/-- `Recorder.recordUserEvent(event)`: silently returns while idle, otherwise
unconditionally appends an entry whose delta is the empty object `{}`
(modelled as `none`), with no cap enforcement. -/
def recordUserEvent (now : Nat) (event : UserInteractionEvent)
    (s : RecorderState) : RecorderState :=
  if s.isRecording then
    { s with timeline := s.timeline ++ [⟨now, some event, none, none⟩] }
  else s

/-- Return value of `Recorder.getStatus()`. -/
structure RecorderStatus where
  isRecording : Bool
  timelineLength : Nat
  startTime : Option Nat := none
  duration : Option Nat := none

/-- `Recorder.getStatus()`: read-only status; `this.startTime || undefined`
is falsy for 0. -/
def getStatus (now : Nat) (s : RecorderState) : RecorderStatus :=
  ⟨s.isRecording, s.timeline.length,
   if s.startTime = 0 then none else some s.startTime,
   if s.isRecording then some (now - s.startTime) else none⟩

/-- The per-entry body of the reconstruction loop of `calculateTreeAtIndex`
(`TimelinePlayer.tsx`): entries with an absent/empty delta are skipped, a
patch error is caught, logged and the entry skipped. -/
def applyEntryCaught (t : AXNodeTree) (e : TimelineEntry) : AXNodeTree :=
  match e.delta with
  | none => t
  | some d =>
    match patchTree t d with
    | some t2 => t2
    | none => t

/-- `calculateTreeAtIndex(targetIndex)` of `TimelinePlayer.tsx`: clone the
initial snapshot tree, then run the loop
`for (i = 0; i <= targetIndex && i < timeline.length; i++)` applying each
entry's delta with a per-entry try/catch. -/
def calculateTreeAtIndex (r : Recording) (targetIndex : Int) : AXNodeTree :=
  (r.timeline.take (targetIndex + 1).toNat).foldl applyEntryCaught r.initialSnapshot.tree

/-- The tree emitted by `goToIndex(index)` of `TimelinePlayer.tsx`: the index
is clamped to `[-1, timeline.length - 1]`; a clamped index of `-1` emits
`recording.initialSnapshot.tree` itself, otherwise `calculateTreeAtIndex`. -/
def goToIndex (r : Recording) (index : Int) : AXNodeTree :=
  let clampedIndex := max (-1) (min ((r.timeline.length : Int) - 1) index)
  if clampedIndex ≥ 0 then calculateTreeAtIndex r clampedIndex
  else r.initialSnapshot.tree

/-- Reference form of reconstruction, in the spec's words: apply the entries'
deltas one after the other (with the source's per-entry skip semantics). -/
def applySeq : AXNodeTree → List TimelineEntry → AXNodeTree
  | t, [] => t
  | t, e :: es => applySeq (applyEntryCaught t e) es

theorem applySeq_eq_foldl (t : AXNodeTree) (es : List TimelineEntry) :
    applySeq t es = es.foldl applyEntryCaught t := by
  induction es generalizing t with
  | nil => rfl
  | cons e es ih => rw [applySeq, List.foldl_cons, ih]

theorem applySeq_append (t : AXNodeTree) (es fs : List TimelineEntry) :
    applySeq t (es ++ fs) = applySeq (applySeq t es) fs := by
  induction es generalizing t with
  | nil => rfl
  | cons e es ih => rw [List.cons_append, applySeq, applySeq, ih]

/-- Claim C2: reconstruction at index -1 returns exactly the recording's
initial snapshot tree; reconstruction at index i (0 ≤ i < timeline length)
equals cloning the initial snapshot tree and applying the deltas of
`timeline[0..i]` in order; in particular reconstruction at the last index
equals sequential application of every delta. -/
theorem goToIndex_reconstruction (r : Recording) (i : Nat) (hi : i < r.timeline.length) :
    goToIndex r (-1) = r.initialSnapshot.tree
    ∧ goToIndex r i = applySeq r.initialSnapshot.tree (r.timeline.take (i + 1))
    ∧ goToIndex r ((r.timeline.length : Int) - 1)
        = applySeq r.initialSnapshot.tree r.timeline := by
  refine ⟨?_, ?_, ?_⟩
  · simp only [goToIndex]
    have h1 : max (-1) (min ((r.timeline.length : Int) - 1) (-1)) = -1 := by omega
    rw [h1]
    norm_num
  · simp only [goToIndex]
    have h1 : max (-1) (min ((r.timeline.length : Int) - 1) (i : Int)) = (i : Int) := by
      omega
    rw [h1, if_pos (by omega : (i : Int) ≥ 0), calculateTreeAtIndex,
      applySeq_eq_foldl]
    have h2 : ((i : Int) + 1).toNat = i + 1 := by omega
    rw [h2]
  · by_cases hlen : r.timeline.length = 0
    · simp only [goToIndex]
      have h1 : max (-1) (min ((r.timeline.length : Int) - 1)
          ((r.timeline.length : Int) - 1)) = -1 := by omega
      rw [h1]
      norm_num
      have h2 : r.timeline = [] := List.length_eq_zero.mp hlen
      rw [h2, applySeq]
    · simp only [goToIndex]
      have h1 : max (-1) (min ((r.timeline.length : Int) - 1)
          ((r.timeline.length : Int) - 1)) = (r.timeline.length : Int) - 1 := by omega
      rw [h1, if_pos (by omega : (r.timeline.length : Int) - 1 ≥ 0),
        calculateTreeAtIndex, applySeq_eq_foldl]
      have h2 : ((r.timeline.length : Int) - 1 + 1).toNat = r.timeline.length := by omega
      rw [h2, List.take_length]

/-- Concrete tree used by several witnesses. -/
def wTreeA : AXNodeTree := .mk 1 "root" none none [.mk 2 "button" (some "ok") none []]

/-- A second concrete tree differing from `wTreeA` in node 2's name. -/
def wTreeB : AXNodeTree := .mk 1 "root" none none [.mk 2 "button" (some "no") none []]

/-- A third concrete tree differing from both. -/
def wTreeC : AXNodeTree := .mk 1 "root" none none [.mk 2 "button" (some "хм") none []]

/-- Concrete recording with one empty-delta entry. -/
def wRecC2 : Recording :=
  ⟨⟨0, 10, none, none, "1.0.0"⟩, ⟨0, wTreeA, [], none, none⟩, [⟨1, none, none, none⟩]⟩

/-- Witness for C2 at a concrete recording and index 0. -/
theorem goToIndex_reconstruction_witness :
    0 < wRecC2.timeline.length
    ∧ (goToIndex wRecC2 (-1) = wRecC2.initialSnapshot.tree
       ∧ goToIndex wRecC2 0
           = applySeq wRecC2.initialSnapshot.tree (wRecC2.timeline.take 1)
       ∧ goToIndex wRecC2 ((wRecC2.timeline.length : Int) - 1)
           = applySeq wRecC2.initialSnapshot.tree wRecC2.timeline) :=
  ⟨by decide, goToIndex_reconstruction wRecC2 0 (by decide)⟩

/-- Claim C8: during playback reconstruction a timeline entry whose delta
fails to apply is skipped in its per-entry catch, and every subsequent
entry is still applied: full reconstruction equals reconstruction that
drops the failing entry and continues from the state reached before it. -/
theorem failing_entry_skipped (r : Recording) (pre suf : List TimelineEntry)
    (f : TimelineEntry) (d : NodeDelta)
    (htl : r.timeline = pre ++ f :: suf)
    (hd : f.delta = some d)
    (hfail : patchTree (applySeq r.initialSnapshot.tree pre) d = none) :
    calculateTreeAtIndex r ((r.timeline.length : Int) - 1)
      = applySeq (applySeq r.initialSnapshot.tree pre) suf := by
  rw [calculateTreeAtIndex]
  have hlen : ((r.timeline.length : Int) - 1 + 1).toNat = r.timeline.length := by omega
  rw [hlen, List.take_length, ← applySeq_eq_foldl, htl, applySeq_append, applySeq]
  simp only [applyEntryCaught, hd, hfail]

/-- A delta that fails to apply to `wTreeA`: it patches a matched child with
`backendNodeId` 99, which `wTreeA` does not have. -/
def wBadDelta : NodeDelta := .mk none none none none (some [.inl (99, none)])

/-- A delta that applies to `wTreeA`: rename the root role. -/
def wGoodDelta : NodeDelta := .mk none (some ("root", "document")) none none none

/-- Concrete recording whose first entry fails to apply and whose second
entry applies fine. -/
def wRecC8 : Recording :=
  ⟨⟨0, 10, none, none, "1.0.0"⟩, ⟨0, wTreeA, [], none, none⟩,
   [⟨1, none, some wBadDelta, none⟩, ⟨2, none, some wGoodDelta, none⟩]⟩

/-- Witness for C8: the failing first entry is skipped and the second entry
is still applied. -/
theorem failing_entry_skipped_witness :
    wRecC8.timeline = [] ++ ⟨1, none, some wBadDelta, none⟩ :: [⟨2, none, some wGoodDelta, none⟩]
    ∧ (⟨1, none, some wBadDelta, none⟩ : TimelineEntry).delta = some wBadDelta
    ∧ patchTree (applySeq wRecC8.initialSnapshot.tree []) wBadDelta = none
    ∧ calculateTreeAtIndex wRecC8 ((wRecC8.timeline.length : Int) - 1)
        = applySeq (applySeq wRecC8.initialSnapshot.tree [])
            [⟨2, none, some wGoodDelta, none⟩] :=
  ⟨rfl, rfl, rfl,
   failing_entry_skipped wRecC8 [] [⟨2, none, some wGoodDelta, none⟩]
     ⟨1, none, some wBadDelta, none⟩ wBadDelta rfl rfl rfl⟩

/-- Claim C9: while recording, `recordUserEvent` unconditionally appends
exactly one timeline entry whose delta is the empty object, and never
evicts: the timeline grows by one regardless of `maxTimelineEntries`. -/
theorem recordUserEvent_appends (now : Nat) (ev : UserInteractionEvent)
    (s : RecorderState) (h : s.isRecording = true) :
    recordUserEvent now ev s
      = { s with timeline := s.timeline ++ [⟨now, some ev, none, none⟩] }
    ∧ (recordUserEvent now ev s).timeline.length = s.timeline.length + 1 := by
  constructor
  · simp [recordUserEvent, h]
  · simp [recordUserEvent, h]

/-- Recording state already at its configured cap of 1. -/
def wRecorderC9 : RecorderState :=
  { isRecording := true, initialSnapshot := none, currentTree := none,
    timeline := [⟨0, none, none, none⟩], startTime := 0,
    maxTimelineEntries := 1, lastSerializedTree := none }

/-- Witness for C9: at a state whose timeline already holds
`maxTimelineEntries = 1` entries, a user event still grows the timeline to
2 entries, exceeding the configured bound. -/
theorem recordUserEvent_appends_witness :
    wRecorderC9.isRecording = true
    ∧ (recordUserEvent 7 ⟨"click", 7, ""⟩ wRecorderC9).timeline.length
        = wRecorderC9.timeline.length + 1 :=
  ⟨rfl, (recordUserEvent_appends 7 ⟨"click", 7, ""⟩ wRecorderC9 rfl).2⟩

/-- Counterexample to claim C4 as stated: recording a user event while Idle
does not fail with `NotRecording`; the method silently returns, leaving the
recorder state unchanged. -/
theorem recordUserEvent_idle_no_error :
    recordUserEvent 5 ⟨"click", 5, ""⟩ (mkRecorder none) = mkRecorder none := rfl

/-- Claim C4 (amended): `start` while Recording fails synchronously with
`AlreadyRecording` and `stop` while Idle fails synchronously with
`NotRecording`; recording a user event while Idle is a silent no-op rather
than an error. -/
theorem recorder_state_machine (s s' : RecorderState) (now : Nat) (t : AXNodeTree)
    (url title : Option String) (ev : UserInteractionEvent)
    (hrec : s.isRecording = true) (hidle : s'.isRecording = false) :
    startRecording now t url title s = .error .alreadyRecording
    ∧ stopRecording now s' = .error .notRecording
    ∧ recordUserEvent now ev s' = s' := by
  refine ⟨?_, ?_, ?_⟩
  · simp [startRecording, hrec]
  · simp [stopRecording, hidle]
  · simp [recordUserEvent, hidle]

/-- Witness for C4 (amended) at concrete recorder states. -/
theorem recorder_state_machine_witness :
    (startRecording 3 wTreeA none none wRecorderC9 = .error .alreadyRecording
     ∧ stopRecording 3 (mkRecorder none) = .error .notRecording
     ∧ recordUserEvent 3 ⟨"scroll", 3, ""⟩ (mkRecorder none) = mkRecorder none) :=
  recorder_state_machine wRecorderC9 (mkRecorder none) 3 wTreeA none none
    ⟨"scroll", 3, ""⟩ rfl rfl

/-- While recording, a `recordTreeChange` whose canonical serialization equals
the stored baseline serialization is a complete no-op. -/
theorem recordTreeChange_noop (now : Nat) (t : AXNodeTree)
    (ev : Option UserInteractionEvent) (s : RecorderState) (c : AXNodeTree)
    (hrec : s.isRecording = true) (hcur : s.currentTree = some c)
    (hser : s.lastSerializedTree = some (stableStringify t)) :
    recordTreeChange now t ev s = s := by
  simp only [recordTreeChange, hrec, hcur]
  rw [if_pos hser]

/-- While recording with a coherent serialized baseline, a `recordTreeChange`
with a tree distinct from the baseline appends one entry (evicting the
oldest beyond the cap) and advances the baseline. -/
theorem recordTreeChange_append (now : Nat) (t : AXNodeTree)
    (ev : Option UserInteractionEvent) (s : RecorderState) (c : AXNodeTree)
    (hrec : s.isRecording = true) (hcur : s.currentTree = some c)
    (hser : s.lastSerializedTree = some (stableStringify c)) (hne : c ≠ t) :
    recordTreeChange now t ev s =
      { s with
        timeline :=
          if s.maxTimelineEntries ≠ 0
              ∧ s.timeline.length + 1 > s.maxTimelineEntries
          then (s.timeline
            ++ [(⟨now, ev, diffTree c t, some (extractChangedNodeIds c t)⟩ : TimelineEntry)]).tail
          else s.timeline
            ++ [(⟨now, ev, diffTree c t, some (extractChangedNodeIds c t)⟩ : TimelineEntry)],
        currentTree := some t,
        lastSerializedTree := some (stableStringify t) } := by
  simp only [recordTreeChange, hrec, hcur]
  rw [if_neg (by
    rw [hser]
    intro h
    exact hne (by simpa [stableStringify] using h))]
  cases hd : computeDelta c t with
  | none => exact absurd ((diffTree_eq_none_iff c t).mp hd) hne
  | some delta =>
    have hkc := diffTree_keyCount c t delta hd
    have hdelta : diffTree c t = some delta := hd
    simp only [hkc, hdelta, if_false, List.length_append, List.length_cons,
      List.length_nil]

/-- Claim C6: while Recording, a `recordTreeChange` with a tree
content-identical to the current baseline is a complete no-op (the canonical
key-sorted serializations are compared before any diff), so a second call
with the same tree appends nothing, while a second call with a distinct tree
appends exactly one entry. -/
theorem recordTreeChange_dedup (s : RecorderState) (c t t' : AXNodeTree)
    (now1 now2 : Nat) (ev ev' : Option UserInteractionEvent)
    (hrec : s.isRecording = true) (hcur : s.currentTree = some c)
    (hser : s.lastSerializedTree = some (stableStringify c))
    (hne : t' ≠ t)
    (hroom : (recordTreeChange now1 t ev s).timeline.length < s.maxTimelineEntries
             ∨ s.maxTimelineEntries = 0) :
    recordTreeChange now2 t ev' (recordTreeChange now1 t ev s)
      = recordTreeChange now1 t ev s
    ∧ (recordTreeChange now2 t' ev' (recordTreeChange now1 t ev s)).timeline.length
      = (recordTreeChange now1 t ev s).timeline.length + 1 := by
  set s1 := recordTreeChange now1 t ev s with hs1
  have hfacts : s1.isRecording = true ∧ s1.currentTree = some t
      ∧ s1.lastSerializedTree = some (stableStringify t)
      ∧ s1.maxTimelineEntries = s.maxTimelineEntries := by
    by_cases hct : s.lastSerializedTree = some (stableStringify t)
    · have hnoop := recordTreeChange_noop now1 t ev s c hrec hcur hct
      have hceqt : c = t := by
        rw [hser] at hct
        simpa [stableStringify] using hct
      rw [hs1, hnoop]
      exact ⟨hrec, by rw [hcur, hceqt], hct, rfl⟩
    · have hcne : c ≠ t := by
        intro h
        rw [h] at hser
        exact hct hser
      rw [hs1, recordTreeChange_append now1 t ev s c hrec hcur hser hcne]
      exact ⟨hrec, rfl, rfl, rfl⟩
  obtain ⟨hf1, hf2, hf3, hf4⟩ := hfacts
  constructor
  · exact recordTreeChange_noop now2 t ev' s1 t hf1 hf2 hf3
  · rw [recordTreeChange_append now2 t' ev' s1 t hf1 hf2 hf3 (fun h => hne h.symm)]
    have hA : ¬(s1.maxTimelineEntries ≠ 0
        ∧ s1.timeline.length + 1 > s1.maxTimelineEntries) := by
      rw [hf4]
      rcases hroom with hlt | hzero
      · rintro ⟨_, hgt⟩
        omega
      · rintro ⟨hnz, _⟩
        exact hnz hzero
    simp only [if_neg hA, List.length_append, List.length_cons, List.length_nil]

/-- Baseline-coherent recording state used by the C6 witness. -/
def wRecorderC6 : RecorderState :=
  { isRecording := true, initialSnapshot := none, currentTree := some wTreeA,
    timeline := [], startTime := 0, maxTimelineEntries := 10000,
    lastSerializedTree := some (stableStringify wTreeA) }

/-- Witness for C6 at concrete trees: re-recording `wTreeB` is a no-op,
recording the distinct `wTreeC` afterwards appends one entry. -/
theorem recordTreeChange_dedup_witness :
    wRecorderC6.isRecording = true
    ∧ wRecorderC6.currentTree = some wTreeA
    ∧ wRecorderC6.lastSerializedTree = some (stableStringify wTreeA)
    ∧ wTreeC ≠ wTreeB
    ∧ ((recordTreeChange 1 wTreeB none wRecorderC6).timeline.length
         < wRecorderC6.maxTimelineEntries
       ∨ wRecorderC6.maxTimelineEntries = 0)
    ∧ (recordTreeChange 2 wTreeB none (recordTreeChange 1 wTreeB none wRecorderC6)
         = recordTreeChange 1 wTreeB none wRecorderC6
       ∧ (recordTreeChange 2 wTreeC none
            (recordTreeChange 1 wTreeB none wRecorderC6)).timeline.length
         = (recordTreeChange 1 wTreeB none wRecorderC6).timeline.length + 1) := by
  refine ⟨rfl, rfl, rfl, by decide, ?_, ?_⟩
  · left
    have h := recordTreeChange_append 1 wTreeB none wRecorderC6 wTreeA rfl rfl rfl
      (by decide)
    rw [h]
    decide
  · exact recordTreeChange_dedup wRecorderC6 wTreeA wTreeB wTreeC 1 2 none none
      rfl rfl rfl (by decide)
      (by
        left
        have h := recordTreeChange_append 1 wTreeB none wRecorderC6 wTreeA rfl rfl rfl
          (by decide)
        rw [h]
        decide)

theorem mem_dedupFirstAux (l : List Nat) (seen : List Nat) (x : Nat) :
    x ∈ dedupFirstAux l seen ↔ x ∈ l ∧ x ∉ seen := by
  induction l generalizing seen with
  | nil => simp [dedupFirstAux]
  | cons y ys ih =>
    rw [dedupFirstAux]
    by_cases hy : y ∈ seen
    · rw [if_pos hy, ih]
      constructor
      · rintro ⟨hmem, hns⟩
        exact ⟨List.mem_cons_of_mem y hmem, hns⟩
      · rintro ⟨hmem, hns⟩
        rcases List.mem_cons.mp hmem with rfl | hmem'
        · exact absurd hy hns
        · exact ⟨hmem', hns⟩
    · rw [if_neg hy]
      constructor
      · intro hmem
        rcases List.mem_cons.mp hmem with rfl | hmem'
        · exact ⟨List.mem_cons_self x ys, hy⟩
        · obtain ⟨h1, h2⟩ := (ih (y :: seen)).mp hmem'
          refine ⟨List.mem_cons_of_mem y h1, fun hx => h2 (List.mem_cons_of_mem y hx)⟩
      · rintro ⟨hmem, hns⟩
        rcases List.mem_cons.mp hmem with rfl | hmem'
        · exact List.mem_cons_self x _
        · by_cases hxy : x = y
          · subst hxy
            exact List.mem_cons_self x _
          · exact List.mem_cons_of_mem y ((ih (y :: seen)).mpr
              ⟨hmem', fun hx => by
                rcases List.mem_cons.mp hx with h | h
                · exact hxy h
                · exact hns h⟩)

theorem mem_dedupFirst (l : List Nat) (x : Nat) : x ∈ dedupFirst l ↔ x ∈ l := by
  rw [dedupFirst, mem_dedupFirstAux]
  simp

/-- With duplicate-free keys, the last-write-wins JS `Map.get` coincides with
the first-occurrence lookup. -/
theorem tripleGet_eq_find (m : List (Nat × RoleNameValue))
    (hn : (m.map (·.1)).Nodup) (id : Nat) :
    tripleGet m id = (m.find? (fun p => p.1 == id)).map (·.2) := by
  induction m with
  | nil => rfl
  | cons kv m ih =>
    rw [List.map_cons, List.nodup_cons] at hn
    obtain ⟨hk, hn'⟩ := hn
    rw [tripleGet, List.reverse_cons, List.find?_append]
    by_cases hid : kv.1 = id
    · have h1 : m.reverse.find? (fun p => p.1 == id) = none := by
        rw [List.find?_eq_none]
        intro p hp
        simp only [beq_iff_eq]
        intro hpid
        exact hk (by
          rw [← hid] at hpid
          exact List.mem_map.mpr ⟨p, List.mem_reverse.mp hp, hpid⟩)
      rw [h1]
      have h2 : List.find? (fun p => p.1 == id) [kv] = some kv := by
        simp [List.find?, hid]
      have h3 : List.find? (fun p => p.1 == id) (kv :: m) = some kv := by
        simp [List.find?, hid]
      rw [h3]
      simp [h2]
    · have h2 : List.find? (fun p => p.1 == id) [kv] = none := by
        rw [List.find?_cons_of_neg]
        · rfl
        · simp [hid]
      have h3 : List.find? (fun p => p.1 == id) (kv :: m) =
          List.find? (fun p => p.1 == id) m := by
        rw [List.find?_cons_of_neg]
        simp [hid]
      rw [h2, h3, ← ih hn']
      rw [tripleGet]
      cases m.reverse.find? (fun p => p.1 == id) <;> rfl

/-- The ids occurring in a tree, in the pre-order of `collect`. -/
def treeIds (t : AXNodeTree) : List Nat := (collectTriples t).map (·.1)

/-- Declarative (role, name, value) triple of the node with the given id:
first pre-order occurrence. -/
def tripleAt (t : AXNodeTree) (id : Nat) : Option RoleNameValue :=
  ((collectTriples t).find? (fun p => p.1 == id)).map (·.2)

theorem tripleAt_eq_none_iff (t : AXNodeTree) (id : Nat) :
    tripleAt t id = none ↔ id ∉ treeIds t := by
  rw [tripleAt, Option.map_eq_none', List.find?_eq_none, treeIds]
  constructor
  · intro h hmem
    obtain ⟨p, hp, hpid⟩ := List.mem_map.mp hmem
    have := h p hp
    simp only [beq_iff_eq] at this
    exact this hpid
  · intro h p hp
    simp only [beq_iff_eq]
    intro hpid
    exact h (List.mem_map.mpr ⟨p, hp, hpid⟩)

theorem tripleAt_isSome_iff (t : AXNodeTree) (id : Nat) :
    (tripleAt t id).isSome ↔ id ∈ treeIds t := by
  cases h : tripleAt t id with
  | none => simp [(tripleAt_eq_none_iff t id).mp h]
  | some a =>
    simp only [Option.isSome_some, true_iff]
    exact not_not.mp (fun hnm => by
      rw [(tripleAt_eq_none_iff t id).mpr hnm] at h
      exact absurd h (by simp))

/-- Claim C7: for trees with duplicate-free node ids,
`extractChangedNodeIds` returns exactly the ids, drawn from the union of
node identities of the two trees, that are present in only one tree or
whose (role, name, value) triple differs between the two. -/
theorem extractChangedNodeIds_spec (prev next : AXNodeTree)
    (hp : (treeIds prev).Nodup) (hn : (treeIds next).Nodup) (id : Nat) :
    id ∈ extractChangedNodeIds prev next ↔
      ((id ∈ treeIds prev ∧ id ∉ treeIds next)
       ∨ (id ∉ treeIds prev ∧ id ∈ treeIds next)
       ∨ (id ∈ treeIds prev ∧ id ∈ treeIds next
          ∧ tripleAt prev id ≠ tripleAt next id)) := by
  have hgp : tripleGet (collectTriples prev) id = tripleAt prev id :=
    tripleGet_eq_find _ hp id
  have hgn : tripleGet (collectTriples next) id = tripleAt next id :=
    tripleGet_eq_find _ hn id
  simp only [extractChangedNodeIds, List.mem_filter, mem_dedupFirst,
    List.mem_append, hgp, hgn]
  have hidsP : (id ∈ (collectTriples prev).map (·.1)) = (id ∈ treeIds prev) := rfl
  have hidsN : (id ∈ (collectTriples next).map (·.1)) = (id ∈ treeIds next) := rfl
  rw [hidsP, hidsN]
  cases hA : tripleAt prev id with
  | none =>
    have hPnot : id ∉ treeIds prev := (tripleAt_eq_none_iff prev id).mp hA
    cases hB : tripleAt next id with
    | none =>
      have hNnot : id ∉ treeIds next := (tripleAt_eq_none_iff next id).mp hB
      simp [hPnot, hNnot]
    | some b =>
      have hNmem : id ∈ treeIds next := (tripleAt_isSome_iff next id).mp (by simp [hB])
      simp [hPnot, hNmem]
  | some a =>
    have hPmem : id ∈ treeIds prev := (tripleAt_isSome_iff prev id).mp (by simp [hA])
    cases hB : tripleAt next id with
    | none =>
      have hNnot : id ∉ treeIds next := (tripleAt_eq_none_iff next id).mp hB
      simp [hPmem, hNnot]
    | some b =>
      have hNmem : id ∈ treeIds next := (tripleAt_isSome_iff next id).mp (by simp [hB])
      simp [hPmem, hNmem]

/-- Tree for the C7 witness: node 2's name differs from `wTreeA` and node 3
is new. -/
def wTreeD : AXNodeTree :=
  .mk 1 "root" none none [.mk 2 "button" (some "no") none [], .mk 3 "text" none none []]

/-- Witness for C7 at concrete trees and id 2 (changed triple). -/
theorem extractChangedNodeIds_spec_witness :
    (treeIds wTreeA).Nodup ∧ (treeIds wTreeD).Nodup
    ∧ (2 ∈ extractChangedNodeIds wTreeA wTreeD ↔
        ((2 ∈ treeIds wTreeA ∧ 2 ∉ treeIds wTreeD)
         ∨ (2 ∉ treeIds wTreeA ∧ 2 ∈ treeIds wTreeD)
         ∨ (2 ∈ treeIds wTreeA ∧ 2 ∈ treeIds wTreeD
            ∧ tripleAt wTreeA 2 ≠ tripleAt wTreeD 2))) :=
  ⟨by decide, by decide,
   extractChangedNodeIds_spec wTreeA wTreeD (by decide) (by decide) 2⟩

/-- Drive a recorder through successive tree changes, one per clock tick. -/
def runChanges : RecorderState → Nat → List AXNodeTree → RecorderState
  | s, _, [] => s
  | s, i, t :: ts => runChanges (recordTreeChange i t none s) (i + 1) ts

/-- The timeline entries a sequence of changes produces, without any bound. -/
def entriesFor : AXNodeTree → Nat → List AXNodeTree → List TimelineEntry
  | _, _, [] => []
  | c, i, t :: ts =>
    ⟨i, none, diffTree c t, some (extractChangedNodeIds c t)⟩ :: entriesFor t (i + 1) ts

theorem entriesFor_length (ts : List AXNodeTree) :
    ∀ (c : AXNodeTree) (i : Nat), (entriesFor c i ts).length = ts.length := by
  induction ts with
  | nil => intro c i; rfl
  | cons t ts ih =>
    intro c i
    rw [entriesFor, List.length_cons, List.length_cons, ih]

/-- FIFO invariant of the capped recorder: running a chain of pairwise
distinct changes keeps exactly the newest `maxTimelineEntries` entries. -/
theorem runChanges_timeline (ts : List AXNodeTree) :
    ∀ (s : RecorderState) (c : AXNodeTree) (i : Nat),
      s.isRecording = true → s.currentTree = some c →
      s.lastSerializedTree = some (stableStringify c) →
      0 < s.maxTimelineEntries →
      s.timeline.length ≤ s.maxTimelineEntries →
      List.Chain' (· ≠ ·) (c :: ts) →
      (runChanges s i ts).timeline
        = (s.timeline ++ entriesFor c i ts).drop
            (s.timeline.length + ts.length - s.maxTimelineEntries) := by
  induction ts with
  | nil =>
    intro s c i h1 h2 h3 h4 h5 h6
    rw [runChanges, entriesFor, List.append_nil, List.length_nil, Nat.add_zero,
      Nat.sub_eq_zero_of_le h5, List.drop_zero]
  | cons t ts ih =>
    intro s c i h1 h2 h3 h4 h5 h6
    have hct : c ≠ t := (List.chain'_cons.mp h6).1
    have hch' : List.Chain' (· ≠ ·) (t :: ts) := (List.chain'_cons.mp h6).2
    rw [runChanges, recordTreeChange_append i t none s c h1 h2 h3 hct]
    have htl' : (if s.maxTimelineEntries ≠ 0
          ∧ s.timeline.length + 1 > s.maxTimelineEntries
        then (s.timeline
          ++ [(⟨i, none, diffTree c t, some (extractChangedNodeIds c t)⟩ : TimelineEntry)]).tail
        else s.timeline
          ++ [(⟨i, none, diffTree c t, some (extractChangedNodeIds c t)⟩ : TimelineEntry)])
        = (s.timeline
            ++ [(⟨i, none, diffTree c t, some (extractChangedNodeIds c t)⟩ : TimelineEntry)]).drop
            (s.timeline.length + 1 - s.maxTimelineEntries) := by
      by_cases hc1 : s.maxTimelineEntries ≠ 0
          ∧ s.timeline.length + 1 > s.maxTimelineEntries
      · rw [if_pos hc1]
        have he : s.timeline.length + 1 - s.maxTimelineEntries = 1 := by omega
        rw [he, List.drop_one]
      · rw [if_neg hc1]
        have he : s.timeline.length + 1 - s.maxTimelineEntries = 0 := by omega
        rw [he, List.drop_zero]
    rw [htl']
    rw [ih { s with
        timeline := (s.timeline
          ++ [(⟨i, none, diffTree c t, some (extractChangedNodeIds c t)⟩ : TimelineEntry)]).drop
          (s.timeline.length + 1 - s.maxTimelineEntries),
        currentTree := some t,
        lastSerializedTree := some (stableStringify t) } t (i + 1) h1 rfl rfl h4 (by
          simp only [List.length_drop, List.length_append, List.length_cons,
            List.length_nil]
          omega) hch']
    simp only [List.length_drop, List.length_append, List.length_cons, List.length_nil]
    rw [← List.drop_append_of_le_length (by
      simp only [List.length_append, List.length_cons, List.length_nil]
      omega), List.drop_drop]
    rw [entriesFor]
    have hlist : (s.timeline
          ++ [(⟨i, none, diffTree c t, some (extractChangedNodeIds c t)⟩ : TimelineEntry)])
          ++ entriesFor t (i + 1) ts
        = s.timeline
          ++ (⟨i, none, diffTree c t, some (extractChangedNodeIds c t)⟩ : TimelineEntry)
            :: entriesFor t (i + 1) ts := by
      rw [List.append_assoc, List.singleton_append]
    rw [hlist]
    congr 1
    omega

/-- Claim C5: with a configured cap of N (default 10,000), recording N+1
pairwise distinct tree changes in one session leaves exactly N timeline
entries, the oldest having been evicted first: the retained entries are the
entries of changes 2..N+1 in order. -/
theorem bounded_timeline (N : Nat) (t0 : AXNodeTree) (ts : List AXNodeTree)
    (s : RecorderState) (hN : 0 < N)
    (hs : startRecording 100 t0 none none (mkRecorder (some N)) = .ok s)
    (hlen : ts.length = N + 1)
    (hch : List.Chain' (· ≠ ·) (t0 :: ts)) :
    (getStatus 0 (runChanges s 0 ts)).timelineLength = N
    ∧ (runChanges s 0 ts).timeline = (entriesFor t0 0 ts).drop 1 := by
  have hsv : s = { isRecording := true
                 , initialSnapshot :=
                     some ⟨100, t0, bridgeFlattenTree t0, none, none⟩
                 , currentTree := some t0
                 , timeline := []
                 , startTime := 100
                 , maxTimelineEntries := N
                 , lastSerializedTree := some (stableStringify t0) } := by
    rw [startRecording] at hs
    simp only [mkRecorder] at hs
    rw [if_neg (by simp)] at hs
    injection hs with h
    rw [← h]
    rfl
  subst hsv
  have hrun := runChanges_timeline ts
    { isRecording := true
    , initialSnapshot := some ⟨100, t0, bridgeFlattenTree t0, none, none⟩
    , currentTree := some t0
    , timeline := []
    , startTime := 100
    , maxTimelineEntries := N
    , lastSerializedTree := some (stableStringify t0) } t0 0 rfl rfl rfl
    (by simpa using hN) (by simp) hch
  simp only [List.nil_append, List.length_nil, Nat.zero_add] at hrun
  constructor
  · rw [getStatus]
    show (runChanges _ 0 ts).timeline.length = N
    rw [hrun]
    simp only [List.length_drop, entriesFor_length]
    omega
  · rw [hrun, hlen]
    have : N + 1 - N = 1 := by omega
    simp [this]

/-- Recorder state right after `startRecording 100 wTreeA` with a cap of 1. -/
def wRecorderC5 : RecorderState :=
  { isRecording := true
  , initialSnapshot := some ⟨100, wTreeA, bridgeFlattenTree wTreeA, none, none⟩
  , currentTree := some wTreeA
  , timeline := []
  , startTime := 100
  , maxTimelineEntries := 1
  , lastSerializedTree := some (stableStringify wTreeA) }

/-- Witness for C5 with cap N = 1 and two distinct changes: one entry
remains, namely the entry of the second change. -/
theorem bounded_timeline_witness :
    (0 < 1)
    ∧ startRecording 100 wTreeA none none (mkRecorder (some 1)) = .ok wRecorderC5
    ∧ ([wTreeB, wTreeC] : List AXNodeTree).length = 1 + 1
    ∧ List.Chain' (· ≠ ·) [wTreeA, wTreeB, wTreeC]
    ∧ ((getStatus 0 (runChanges wRecorderC5 0 [wTreeB, wTreeC])).timelineLength = 1
       ∧ (runChanges wRecorderC5 0 [wTreeB, wTreeC]).timeline
           = (entriesFor wTreeA 0 [wTreeB, wTreeC]).drop 1) := by
  have hch : List.Chain' (· ≠ ·) [wTreeA, wTreeB, wTreeC] := by
    simp only [List.chain'_cons, List.chain'_singleton, and_true]
    exact ⟨by decide, by decide⟩
  exact ⟨by decide, rfl, rfl, hch,
    bounded_timeline 1 wTreeA [wTreeB, wTreeC] wRecorderC5 (by decide) rfl rfl hch⟩

/-- The flat record `flattenTree` emits for the root of `t` under parent `p`. -/
def flatHead (t : AXNodeTree) (p : Option Nat) : AXNodeFlat :=
  ⟨t.backendNodeId, t.role, t.name, t.value, p, t.children.map (·.backendNodeId)⟩

theorem flattenTree_eq (t : AXNodeTree) (p : Option Nat) :
    flattenTree t p = flatHead t p :: flattenChildren t.children t.backendNodeId := by
  cases t
  rfl

mutual

/-- Height of a tree node (recursion depth of `convertToTreeNode` on it). -/
def heightT : AXNodeTree → Nat
  | .mk _ _ _ _ cs => heightL cs + 1

/-- Height of a children list. -/
def heightL : List AXNodeTree → Nat
  | [] => 0
  | c :: cs => max (heightT c) (heightL cs)

end

theorem heightT_le_heightL {c : AXNodeTree} {cs : List AXNodeTree} (h : c ∈ cs) :
    heightT c ≤ heightL cs := by
  induction cs with
  | nil => cases h
  | cons d cs ih =>
    rw [heightL]
    rcases List.mem_cons.mp h with rfl | h'
    · exact le_max_left _ _
    · exact le_trans (ih h') (le_max_right _ _)

theorem mapM_option_cons_decomp {α β : Type} (g : α → Option β) (a : α) (l : List α)
    (r : List β) (h : (a :: l).mapM g = some r) :
    ∃ y ys, g a = some y ∧ l.mapM g = some ys ∧ r = y :: ys := by
  rw [List.mapM_cons] at h
  cases hy : g a with
  | none => rw [hy] at h; exact absurd h (by simp)
  | some y =>
    rw [hy] at h
    cases hys : l.mapM g with
    | none => rw [hys] at h; exact absurd h (by simp)
    | some ys =>
      rw [hys] at h
      simp only [Option.bind_some, Option.bind_eq_bind] at h
      refine ⟨y, ys, rfl, rfl, ?_⟩
      cases h' : (some (y :: ys) : Option (List β)) with
      | none => exact absurd h' (by simp)
      | some z =>
        have : some (y :: ys) = some r := by
          rw [← h]
          rfl
        injection this with hz
        exact hz.symm

theorem mapM_option_congr {α β : Type} (g g' : α → Option β) (l : List α)
    (h : ∀ x ∈ l, g x = g' x) : l.mapM g = l.mapM g' := by
  induction l with
  | nil => rfl
  | cons a l ih =>
    rw [List.mapM_cons, List.mapM_cons, h a (by simp), ih (fun x hx => h x (by simp [hx]))]

theorem mapM_option_isSome {α β : Type} (g : α → Option β) (l : List α)
    (h : ∀ x ∈ l, (g x).isSome) : (l.mapM g).isSome := by
  induction l with
  | nil => rw [List.mapM_nil]; rfl
  | cons a l ih =>
    cases hy : g a with
    | none => exact absurd (hy ▸ h a (by simp)) (by simp)
    | some y =>
      have hl := ih (fun x hx => h x (by simp [hx]))
      cases hys : l.mapM g with
      | none => exact absurd (hys ▸ hl) (by simp)
      | some ys =>
        rw [List.mapM_cons, hy, hys]
        rfl

theorem mapM_option_forall_isSome {α β : Type} (g : α → Option β) :
    ∀ (l : List α) (r : List β), l.mapM g = some r → ∀ x ∈ l, (g x).isSome := by
  intro l
  induction l with
  | nil => intro r _ x hx; cases hx
  | cons a l ih =>
    intro r hm x hx
    obtain ⟨y, ys, hy, hys, rfl⟩ := mapM_option_cons_decomp g a l r hm
    rcases List.mem_cons.mp hx with rfl | hx'
    · simp [hy]
    · exact ih ys hys x hx'

theorem mapM_map_some {α β : Type} (g : β → Option α) (hmap : α → β) (l : List α)
    (h : ∀ x ∈ l, g (hmap x) = some x) : (l.map hmap).mapM g = some l := by
  induction l with
  | nil => rfl
  | cons a l ih =>
    rw [List.map_cons, List.mapM_cons, h a (by simp),
      ih (fun x hx => h x (by simp [hx]))]
    rfl

theorem filterMap_map_some {α β γ : Type} (g : β → Option γ) (hmap : α → β)
    (k : α → γ) (l : List α) (h : ∀ x ∈ l, g (hmap x) = some (k x)) :
    (l.map hmap).filterMap g = l.map k := by
  induction l with
  | nil => rfl
  | cons a l ih =>
    rw [List.map_cons, List.filterMap_cons, h a (by simp), List.map_cons,
      ih (fun x hx => h x (by simp [hx]))]

/-- Larger fuel preserves a successful conversion. -/
theorem convertToTreeNode_mono (L : List AXNodeFlat) :
    ∀ (f f' : Nat), f ≤ f' → ∀ (n : AXNodeFlat) (t : AXNodeTree),
      convertToTreeNode L f n = some t → convertToTreeNode L f' n = some t := by
  intro f
  induction f with
  | zero =>
    intro f' _ n t h
    exact absurd h (by rw [convertToTreeNode]; simp)
  | succ g ih =>
    intro f' hff' n t h
    obtain ⟨g', rfl⟩ : ∃ g', f' = g' + 1 := ⟨f' - 1, by omega⟩
    rw [convertToTreeNode] at h ⊢
    have hgg' : g ≤ g' := by omega
    cases hm : (n.childIds.filterMap (mapLookup L)).mapM (convertToTreeNode L g) with
    | none => rw [hm] at h; exact absurd h (by simp)
    | some cs =>
      have hall : ∀ x ∈ n.childIds.filterMap (mapLookup L),
          (convertToTreeNode L g x).isSome :=
        mapM_option_forall_isSome _ _ cs hm
      have hcongr : (n.childIds.filterMap (mapLookup L)).mapM (convertToTreeNode L g')
          = some cs := by
        rw [mapM_option_congr (convertToTreeNode L g') (convertToTreeNode L g) _
          (fun x hx => by
            obtain ⟨y, hy⟩ := Option.isSome_iff_exists.mp (hall x hx)
            rw [hy, ih g' hgg' x y hy])]
        exact hm
      rw [hcongr]
      rw [hm] at h
      exact h

/-- Combine per-element fuel bounds into one uniform bound. -/
theorem exists_uniform_fuel (L : List AXNodeFlat) (l : List AXNodeFlat)
    (h : ∀ c ∈ l, ∃ f, (convertToTreeNode L f c).isSome) :
    ∃ F, ∀ c ∈ l, (convertToTreeNode L F c).isSome := by
  induction l with
  | nil => exact ⟨0, by simp⟩
  | cons a l ih =>
    obtain ⟨fa, hfa⟩ := h a (by simp)
    obtain ⟨F, hF⟩ := ih (fun c hc => h c (by simp [hc]))
    refine ⟨max fa F, ?_⟩
    intro c hc
    rcases List.mem_cons.mp hc with rfl | hc'
    · obtain ⟨t, ht⟩ := Option.isSome_iff_exists.mp hfa
      rw [convertToTreeNode_mono L fa (max fa F) (le_max_left _ _) c t ht]
      rfl
    · obtain ⟨t, ht⟩ := Option.isSome_iff_exists.mp (hF c hc')
      rw [convertToTreeNode_mono L F (max fa F) (le_max_right _ _) c t ht]
      rfl

theorem mem_flattenChildren_iff (cs : List AXNodeTree) (q : Nat) (x : AXNodeFlat) :
    x ∈ flattenChildren cs q ↔ ∃ c ∈ cs, x ∈ flattenTree c (some q) := by
  induction cs with
  | nil => simp [flattenChildren]
  | cons c cs ih =>
    rw [flattenChildren, List.mem_append, ih]
    constructor
    · rintro (h | ⟨d, hd, hx⟩)
      · exact ⟨c, by simp, h⟩
      · exact ⟨d, by simp [hd], hx⟩
    · rintro ⟨d, hd, hx⟩
      rcases List.mem_cons.mp hd with rfl | hd'
      · exact Or.inl hx
      · exact Or.inr ⟨d, hd', hx⟩

/-- With duplicate-free ids, the node map resolves an id to the unique listed
node carrying it. -/
theorem find?_key_unique (id : Nat) (m : AXNodeFlat) :
    ∀ (l : List AXNodeFlat), (flatIds l).Nodup → m ∈ l → m.backendNodeId = id →
      l.find? (fun n => n.backendNodeId == id) = some m := by
  intro l
  induction l with
  | nil => intro _ h; cases h
  | cons a l ih =>
    intro hnd hm hid
    rw [flatIds, List.map_cons, List.nodup_cons] at hnd
    obtain ⟨ha, hnd'⟩ := hnd
    rcases List.mem_cons.mp hm with rfl | hm'
    · rw [List.find?_cons_of_pos]
      simp [hid]
    · rw [List.find?_cons_of_neg, ih hnd' hm' hid]
      simp only [beq_iff_eq]
      intro haid
      exact ha (by
        rw [haid, ← hid]
        exact List.mem_map.mpr ⟨m, hm', rfl⟩)

theorem mapLookup_eq_of_nodup (L : List AXNodeFlat) (hnd : (flatIds L).Nodup)
    (m : AXNodeFlat) (hm : m ∈ L) (id : Nat) (hid : m.backendNodeId = id) :
    mapLookup L id = some m := by
  rw [mapLookup]
  exact find?_key_unique id m L.reverse
    (by
      rw [flatIds, List.map_reverse, List.nodup_reverse]
      exact hnd)
    (List.mem_reverse.mpr hm) hid

/-- Rebuilding lemma: when the flattening of `t` under parent `p` is contained
in an id-duplicate-free node list `L`, conversion of its head record at fuel
`heightT t` reproduces `t` exactly. -/
theorem convert_flatHead (L : List AXNodeFlat) (hnd : (flatIds L).Nodup) :
    ∀ t : AXNodeTree, ∀ p : Option Nat, (∀ x ∈ flattenTree t p, x ∈ L) →
      convertToTreeNode L (heightT t) (flatHead t p) = some t := by
  intro t
  induction t using AXNodeTree.strongInd with
  | _ i r n v cs IH =>
    intro p hsub
    rw [heightT, convertToTreeNode]
    have hchildIds : (flatHead (AXNodeTree.mk i r n v cs) p).childIds
        = cs.map (·.backendNodeId) := rfl
    have hlook : ∀ c ∈ cs, mapLookup L c.backendNodeId = some (flatHead c (some i)) := by
      intro c hc
      apply mapLookup_eq_of_nodup L hnd (flatHead c (some i)) _ _ rfl
      apply hsub
      rw [flattenTree_eq]
      apply List.mem_cons_of_mem
      show flatHead c (some i) ∈ flattenChildren (AXNodeTree.mk i r n v cs).children
        (AXNodeTree.mk i r n v cs).backendNodeId
      rw [mem_flattenChildren_iff]
      exact ⟨c, hc, by rw [flattenTree_eq]; exact List.mem_cons_self _ _⟩
    have hfm : (flatHead (AXNodeTree.mk i r n v cs) p).childIds.filterMap (mapLookup L)
        = cs.map (fun c => flatHead c (some i)) := by
      rw [hchildIds]
      exact filterMap_map_some (mapLookup L) (·.backendNodeId)
        (fun c => flatHead c (some i)) cs hlook
    rw [hfm]
    have hconv : ∀ c ∈ cs,
        convertToTreeNode L (heightL cs) (flatHead c (some i)) = some c := by
      intro c hc
      have hsubc : ∀ x ∈ flattenTree c (some i), x ∈ L := by
        intro x hx
        apply hsub
        rw [flattenTree_eq]
        apply List.mem_cons_of_mem
        show x ∈ flattenChildren (AXNodeTree.mk i r n v cs).children
          (AXNodeTree.mk i r n v cs).backendNodeId
        rw [mem_flattenChildren_iff]
        exact ⟨c, hc, hx⟩
      exact convertToTreeNode_mono L (heightT c) (heightL cs) (heightT_le_heightL hc)
        _ _ (IH c hc (some i) hsubc)
    rw [mapM_map_some (convertToTreeNode L (heightL cs)) (fun c => flatHead c (some i))
      cs hconv]
    rfl

theorem flattenTree_parent :
    ∀ t : AXNodeTree, ∀ (p : Option Nat) (x : AXNodeFlat), x ∈ flattenTree t p →
      x = flatHead t p
      ∨ ∃ a, x.parentId = some a ∧ a ∈ flatIds (flattenTree t p) := by
  intro t
  induction t using AXNodeTree.strongInd with
  | _ i r n v cs IH =>
    intro p x hx
    rw [flattenTree_eq] at hx
    rcases List.mem_cons.mp hx with rfl | hx'
    · exact Or.inl rfl
    · right
      have hx'' : x ∈ flattenChildren cs i := hx'
      obtain ⟨c, hc, hxc⟩ := (mem_flattenChildren_iff cs i x).mp hx''
      have hidsub : ∀ b, b ∈ flatIds (flattenTree c (some i))
          → b ∈ flatIds (flattenTree (AXNodeTree.mk i r n v cs) p) := by
        intro b hb
        obtain ⟨y, hy, hyb⟩ := List.mem_map.mp hb
        refine List.mem_map.mpr ⟨y, ?_, hyb⟩
        rw [flattenTree_eq]
        apply List.mem_cons_of_mem
        show y ∈ flattenChildren (AXNodeTree.mk i r n v cs).children
          (AXNodeTree.mk i r n v cs).backendNodeId
        rw [mem_flattenChildren_iff]
        exact ⟨c, hc, hy⟩
      rcases IH c hc (some i) x hxc with rfl | ⟨a, ha, hamem⟩
      · refine ⟨i, rfl, ?_⟩
        rw [flattenTree_eq]
        exact List.mem_map.mpr ⟨flatHead (AXNodeTree.mk i r n v cs) p, by simp, rfl⟩
      · exact ⟨a, ha, hidsub a hamem⟩

theorem mapLookup_isSome_of_mem_ids (L : List AXNodeFlat) (a : Nat)
    (h : a ∈ flatIds L) : (mapLookup L a).isSome := by
  obtain ⟨y, hy, hya⟩ := List.mem_map.mp h
  rw [mapLookup]
  cases hf : L.reverse.find? (fun n => n.backendNodeId == a) with
  | some m => rfl
  | none =>
    rw [List.find?_eq_none] at hf
    exact absurd (by simp [hya] : (y.backendNodeId == a) = true)
      (by simpa using hf y (List.mem_reverse.mpr hy))

/-- Under the amended round-trip preconditions, the root filter of
`buildTree` selects exactly the flat record of the tree's root. -/
theorem roots_eq (T : AXNodeTree) (L : List AXNodeFlat)
    (hperm : L.Perm (flattenTree T none))
    (hnodup : (flatIds (flattenTree T none)).Nodup)
    (h0 : 0 ∉ flatIds (flattenTree T none)) :
    L.filter (isRootFlat L) = [flatHead T none] := by
  have hidsL : ∀ a, a ∈ flatIds L ↔ a ∈ flatIds (flattenTree T none) := by
    intro a
    constructor
    · intro h
      obtain ⟨y, hy, hya⟩ := List.mem_map.mp h
      exact List.mem_map.mpr ⟨y, hperm.mem_iff.mp hy, hya⟩
    · intro h
      obtain ⟨y, hy, hya⟩ := List.mem_map.mp h
      exact List.mem_map.mpr ⟨y, hperm.mem_iff.mpr hy, hya⟩
  have hroot : ∀ x ∈ flattenTree T none, isRootFlat L x = true → x = flatHead T none := by
    intro x hx hrx
    rcases flattenTree_parent T none x hx with rfl | ⟨a, ha, hamem⟩
    · rfl
    · exfalso
      rw [isRootFlat, ha] at hrx
      have ha0 : a ≠ 0 := fun h => h0 (h ▸ hamem)
      have hsome := mapLookup_isSome_of_mem_ids L a ((hidsL a).mpr hamem)
      rw [Bool.or_eq_true, beq_iff_eq] at hrx
      rcases hrx with h | h
      · exact ha0 h
      · rw [Option.isNone_iff_eq_none] at h
        rw [h] at hsome
        exact absurd hsome (by simp)
  have hrootT : isRootFlat L (flatHead T none) = true := rfl
  have hfilter : (flattenTree T none).filter (isRootFlat L) = [flatHead T none] := by
    rw [flattenTree_eq]
    rw [List.filter_cons_of_pos hrootT]
    have htail : (flattenChildren T.children T.backendNodeId).filter (isRootFlat L)
        = [] := by
      rw [List.filter_eq_nil_iff]
      intro x hx
      intro hrx
      have hmem : x ∈ flattenTree T none := by
        rw [flattenTree_eq]
        exact List.mem_cons_of_mem _ hx
      have hxeq : x = flatHead T none := hroot x hmem hrx
      rw [flattenTree_eq, flatIds, List.map_cons, List.nodup_cons] at hnodup
      apply hnodup.1
      exact List.mem_map.mpr ⟨x, hx, by rw [hxeq]⟩
    rw [htail]
  have hpermf : (L.filter (isRootFlat L)).Perm
      ((flattenTree T none).filter (isRootFlat L)) := hperm.filter _
  rw [hfilter] at hpermf
  exact List.perm_singleton.mp hpermf

/-- Claim C3 (amended): for every non-empty flat node list that is, up to
order, the flattening of a tree with duplicate-free, nonzero node ids —
i.e. whose parent/child references are mutually consistent, the childIds
edges forming one tree covering every listed node and each parentId naming
the childIds-parent — `flattenTree (buildTree nodes)` has the same id set
and the same parent/child edges as the input, independent of listing
order. -/
theorem buildTree_flattenTree_roundTrip (T : AXNodeTree) (L : List AXNodeFlat)
    (hperm : L.Perm (flattenTree T none))
    (hnodup : (flatIds (flattenTree T none)).Nodup)
    (h0 : 0 ∉ flatIds (flattenTree T none)) :
    ∃ fuel R, buildTree fuel L = some (some R)
      ∧ (∀ id, id ∈ flatIds (flattenTree R none) ↔ id ∈ flatIds L)
      ∧ (∀ e, e ∈ flatEdges (flattenTree R none) ↔ e ∈ flatEdges L) := by
  refine ⟨heightT T, T, ?_, ?_, ?_⟩
  · have hndL : (flatIds L).Nodup := by
      have h' : (List.map (fun n => n.backendNodeId) (flattenTree T none)).Nodup := hnodup
      exact (hperm.map (fun n => n.backendNodeId)).nodup_iff.mpr h'
    have hsub : ∀ x ∈ flattenTree T none, x ∈ L := fun x hx => hperm.mem_iff.mpr hx
    cases L with
    | nil =>
      exfalso
      have := hperm.length_eq
      rw [flattenTree_eq] at this
      simp at this
    | cons first rest =>
      have hroots := roots_eq T (first :: rest) hperm hnodup h0
      simp only [buildTree, hroots, List.headD_cons]
      rw [convert_flatHead (first :: rest) hndL T none hsub]
      rfl
  · intro id
    constructor
    · intro h
      obtain ⟨y, hy, hya⟩ := List.mem_map.mp h
      exact List.mem_map.mpr ⟨y, hperm.mem_iff.mpr hy, hya⟩
    · intro h
      obtain ⟨y, hy, hya⟩ := List.mem_map.mp h
      exact List.mem_map.mpr ⟨y, hperm.mem_iff.mp hy, hya⟩
  · intro e
    rw [flatEdges, flatEdges, List.mem_flatMap, List.mem_flatMap]
    constructor
    · rintro ⟨n, hn, he⟩
      exact ⟨n, hperm.mem_iff.mpr hn, he⟩
    · rintro ⟨n, hn, he⟩
      exact ⟨n, hperm.mem_iff.mp hn, he⟩

/-- Witness input for the amended C3: the flattening of a two-node tree,
listed child-first. -/
def wPermFlat : List AXNodeFlat :=
  [⟨2, "button", none, none, some 1, []⟩,
   ⟨1, "document", none, none, none, [2]⟩]

/-- Tree whose flattening `wPermFlat` permutes. -/
def wPermTree : AXNodeTree := .mk 1 "document" none none [.mk 2 "button" none none []]

/-- Witness for the amended C3 at a concrete permuted flattening. -/
theorem buildTree_flattenTree_roundTrip_witness :
    wPermFlat.Perm (flattenTree wPermTree none)
    ∧ (flatIds (flattenTree wPermTree none)).Nodup
    ∧ 0 ∉ flatIds (flattenTree wPermTree none)
    ∧ (∃ fuel R, buildTree fuel wPermFlat = some (some R)
        ∧ (∀ id, id ∈ flatIds (flattenTree R none) ↔ id ∈ flatIds wPermFlat)
        ∧ (∀ e, e ∈ flatEdges (flattenTree R none) ↔ e ∈ flatEdges wPermFlat)) := by
  have hperm : wPermFlat.Perm (flattenTree wPermTree none) := by
    have : flattenTree wPermTree none
        = [⟨1, "document", none, none, none, [2]⟩,
           ⟨2, "button", none, none, some 1, []⟩] := rfl
    rw [this]
    exact List.Perm.swap _ _ _
  refine ⟨hperm, by decide, by decide,
    buildTree_flattenTree_roundTrip wPermTree wPermFlat hperm (by decide) (by decide)⟩

/-- The consistency precondition exactly as claim C3 states it: non-empty,
every `parentId` and every child id refers to a node in the list, and
exactly one root (node without a parent reference). -/
def claimConsistent (L : List AXNodeFlat) : Prop :=
  L ≠ []
  ∧ (∀ n ∈ L, ∀ p, n.parentId = some p → p ∈ flatIds L)
  ∧ (∀ n ∈ L, ∀ c ∈ n.childIds, c ∈ flatIds L)
  ∧ (L.filter (fun n => n.parentId = none)).length = 1

instance claimConsistentDecidable (L : List AXNodeFlat) :
    Decidable (claimConsistent L) := by
  rw [claimConsistent]
  infer_instance

/-- Flat list satisfying C3's stated precondition on which the round trip
loses node 2: node 2 names node 1 as parent, but node 1's childIds is
empty, so `buildTree` drops node 2 silently. -/
def wBadFlat : List AXNodeFlat :=
  [⟨1, "document", none, none, none, []⟩,
   ⟨2, "button", none, none, some 1, []⟩]

/-- Counterexample to claim C3 as stated: `wBadFlat` is non-empty, all its
parent and child references resolve, and it has exactly one root, yet
`flattenTree (buildTree wBadFlat)` does not preserve the id set — node 2 is
lost, because the claimed notion of consistency does not force `childIds`
to mirror `parentId`. -/
theorem buildTree_flattenTree_roundTrip_counterexample :
    claimConsistent wBadFlat
    ∧ buildTree 5 wBadFlat = some (some (.mk 1 "document" none none []))
    ∧ 2 ∈ flatIds wBadFlat
    ∧ 2 ∉ flatIds (flattenTree (.mk 1 "document" none none []) none) := by
  refine ⟨?_, by decide, by decide, by decide⟩
  rw [claimConsistent]
  refine ⟨by decide, by decide, by decide, by decide⟩

/-- One `childIds` step of the node map: from the id `a` (as resolved by the
map) to a listed child id `b`. -/
def childStep (L : List AXNodeFlat) (a b : Nat) : Prop :=
  ∃ n, mapLookup L a = some n ∧ b ∈ n.childIds

/-- The acyclicity precondition of claim C10: no `backendNodeId` is reachable
from itself through `childIds`. -/
def AcyclicChildIds (L : List AXNodeFlat) : Prop :=
  ∀ id, ¬ Relation.TransGen (childStep L) id id

theorem mem_ids_of_mapLookup_eq_some (L : List AXNodeFlat) (a : Nat)
    (n : AXNodeFlat) (h : mapLookup L a = some n) : a ∈ flatIds L := by
  rw [mapLookup] at h
  have hmem := List.mem_of_find?_eq_some h
  have hpred := List.find?_some h
  rw [beq_iff_eq] at hpred
  exact List.mem_map.mpr ⟨n, List.mem_reverse.mp hmem, hpred⟩

/-- If every resolvable child of `n` converts with some fuel, so does `n`. -/
theorem convert_of_children (L : List AXNodeFlat) (n : AXNodeFlat)
    (h : ∀ cid ∈ n.childIds, ∀ c, mapLookup L cid = some c →
      ∃ f, (convertToTreeNode L f c).isSome) :
    ∃ f, (convertToTreeNode L f n).isSome := by
  have hall : ∀ c ∈ n.childIds.filterMap (mapLookup L),
      ∃ f, (convertToTreeNode L f c).isSome := by
    intro c hc
    obtain ⟨cid, hcid, hlc⟩ := List.mem_filterMap.mp hc
    exact h cid hcid c hlc
  obtain ⟨F, hF⟩ := exists_uniform_fuel L _ hall
  refine ⟨F + 1, ?_⟩
  rw [convertToTreeNode]
  have := mapM_option_isSome (convertToTreeNode L F) _ hF
  obtain ⟨cs, hcs⟩ := Option.isSome_iff_exists.mp this
  rw [hcs]
  rfl

/-- Under acyclicity, every node resolved through the map converts with some
fuel: the recursion of `convertToTreeNode` is well-founded. -/
theorem convert_terminates (L : List AXNodeFlat) (hac : AcyclicChildIds L) :
    ∀ (a : Nat) (n : AXNodeFlat), mapLookup L a = some n →
      ∃ f, (convertToTreeNode L f n).isSome := by
  have hfin : Finite {x : Nat // x ∈ flatIds L} := by infer_instance
  let r : {x : Nat // x ∈ flatIds L} → {x : Nat // x ∈ flatIds L} → Prop :=
    fun b a => childStep L a.1 b.1
  have hirr : IsIrrefl {x : Nat // x ∈ flatIds L} (Relation.TransGen r) := by
    constructor
    intro a ha
    have hlift : Relation.TransGen (Function.swap (childStep L)) a.1 a.1 :=
      Relation.TransGen.lift Subtype.val (fun u v huv => huv) ha
    rw [Relation.transGen_swap] at hlift
    exact hac a.1 hlift
  have hwf : WellFounded r := by
    have htg : WellFounded (Relation.TransGen r) :=
      Finite.wellFounded_of_trans_of_irrefl _
    exact Subrelation.wf (fun {x y} hxy => Relation.TransGen.single hxy) htg
  intro a n ha
  have hmem : a ∈ flatIds L := mem_ids_of_mapLookup_eq_some L a n ha
  have hgen : ∀ x : {x : Nat // x ∈ flatIds L},
      ∀ n', mapLookup L x.1 = some n' → ∃ f, (convertToTreeNode L f n').isSome := by
    intro x
    induction x using WellFounded.induction hwf with
    | _ x IH =>
      intro n' hx
      apply convert_of_children
      intro cid hcid c hlc
      have hcidmem : cid ∈ flatIds L := mem_ids_of_mapLookup_eq_some L cid c hlc
      exact IH ⟨cid, hcidmem⟩ ⟨n', hx, hcid⟩ c hlc
  exact hgen ⟨a, hmem⟩ n ha

/-- A flat list with a self-cycle: node 1 lists itself among its children. -/
def wCyclicFlat : List AXNodeFlat := [⟨1, "node", none, none, none, [1]⟩]

theorem convert_cyclic (fuel : Nat) :
    convertToTreeNode wCyclicFlat fuel ⟨1, "node", none, none, none, [1]⟩ = none := by
  induction fuel with
  | zero => rfl
  | succ f ih =>
    rw [convertToTreeNode]
    have hfm : (⟨1, "node", none, none, none, [1]⟩ : AXNodeFlat).childIds.filterMap
        (mapLookup wCyclicFlat) = [⟨1, "node", none, none, none, [1]⟩] := rfl
    rw [hfm, List.mapM_cons, ih]
    rfl

/-- Claim C10: `buildTree` terminates (some fuel suffices) for every flat
node list whose `childIds` reference relation is acyclic; the recursion of
`convertToTreeNode` is well-founded only under this precondition, which
`buildTree` does not check: on the self-cyclic input `wCyclicFlat` no
amount of fuel suffices (the source recursion diverges). -/
theorem buildTree_terminates_acyclic :
    (∀ L, AcyclicChildIds L → ∃ fuel, (buildTree fuel L).isSome)
    ∧ (∀ fuel, buildTree fuel wCyclicFlat = none) := by
  constructor
  · intro L hac
    cases L with
    | nil => exact ⟨0, rfl⟩
    | cons first rest =>
      have hroot : ∃ f, (convertToTreeNode (first :: rest) f
          (((first :: rest).filter (isRootFlat (first :: rest))).headD first)).isSome := by
        apply convert_of_children
        intro cid hcid c hlc
        exact convert_terminates (first :: rest) hac cid c hlc
      obtain ⟨f, hf⟩ := hroot
      refine ⟨f, ?_⟩
      simp only [buildTree]
      obtain ⟨t, ht⟩ := Option.isSome_iff_exists.mp hf
      rw [ht]
      rfl
  · intro fuel
    have hb : buildTree fuel wCyclicFlat
        = (convertToTreeNode wCyclicFlat fuel ⟨1, "node", none, none, none, [1]⟩).map
          some := rfl
    rw [hb, convert_cyclic fuel]
    rfl

/-- Acyclicity follows from any rank function strictly decreasing along
`childIds` edges. -/
theorem acyclic_of_rank (L : List AXNodeFlat) (rank : Nat → Nat)
    (h : ∀ a b, childStep L a b → rank b < rank a) : AcyclicChildIds L := by
  intro id hcyc
  have hdec : ∀ x y, Relation.TransGen (childStep L) x y → rank y < rank x := by
    intro x y hxy
    induction hxy with
    | single h' => exact h _ _ h'
    | tail _ h' ih => exact lt_trans (h _ _ h') ih
  exact absurd (hdec id id hcyc) (lt_irrefl _)

/-- Acyclic two-node flat list for the C10 witness. -/
def wAcyclicFlat : List AXNodeFlat :=
  [⟨1, "document", none, none, none, [2]⟩,
   ⟨2, "button", none, none, some 1, []⟩]

theorem wAcyclicFlat_acyclic : AcyclicChildIds wAcyclicFlat := by
  apply acyclic_of_rank _ (fun id => if id = 1 then 1 else 0)
  rintro a b ⟨n, hn, hb⟩
  by_cases ha2 : a = 2
  · subst ha2
    have heq : mapLookup wAcyclicFlat 2 = some ⟨2, "button", none, none, some 1, []⟩ := rfl
    rw [heq] at hn
    injection hn with h'
    rw [← h'] at hb
    exact absurd hb (List.not_mem_nil b)
  · by_cases ha1 : a = 1
    · subst ha1
      have heq : mapLookup wAcyclicFlat 1
          = some ⟨1, "document", none, none, none, [2]⟩ := rfl
      rw [heq] at hn
      injection hn with h'
      rw [← h'] at hb
      have hb2 : b = 2 := by simpa using hb
      subst hb2
      norm_num
    · exfalso
      have hnone : mapLookup wAcyclicFlat a = none := by
        rw [mapLookup, List.find?_eq_none]
        intro x hx
        simp only [beq_iff_eq]
        intro hxa
        have hx' : x ∈ [(⟨2, "button", none, none, some 1, []⟩ : AXNodeFlat),
            ⟨1, "document", none, none, none, [2]⟩] := hx
        rcases List.mem_cons.mp hx' with rfl | h2
        · exact ha2 hxa.symm
        · rcases List.mem_cons.mp h2 with rfl | h3
          · exact ha1 hxa.symm
          · exact absurd h3 (List.not_mem_nil x)
      rw [hnone] at hn
      exact absurd hn (by simp)

/-- Witness for C10: the acyclic `wAcyclicFlat` admits sufficient fuel. -/
theorem buildTree_terminates_acyclic_witness :
    AcyclicChildIds wAcyclicFlat
    ∧ ∃ fuel, (buildTree fuel wAcyclicFlat).isSome :=
  ⟨wAcyclicFlat_acyclic,
   buildTree_terminates_acyclic.1 wAcyclicFlat wAcyclicFlat_acyclic⟩
